import Mathlib

/-!
Verification of the node-oscquery implementation against its specification.

The definitions below are a shallow embedding of the TypeScript sources:

* `src/lib/osc_websocket_server.ts` — the OSC binary codec
  (`_encodeOSCMessage`, `_decodeOSCMessage`) and the WebSocket broadcast
  subscription matching (`broadcastPathChanged`, `broadcastOSCMessage`);
* `src/lib/osc_query_server.ts` / `src/unnamed/part_001` — the HTTP GET
  attribute handler (`_handleGet`), `addMethod`/`removeMethod`, and the
  mDNS service-name sanitizer (`sanitizeName`);
* `src/unnamed/part_000` — the mDNS discovery dedup logic
  (`_handleUp`/`_handleDown`) and the discovery deserializer
  (`deserializeMethodNode`, `parseTypeString`, `deserializeRange`).

Conventions: JavaScript strings and Node `Buffer`s are modelled as lists of
natural numbers (`List Nat`), each entry one byte (for codec-level strings,
the UTF-8 bytes).  Machine integers are `Nat`/`Int` with explicit reduction
modulo 2^32 where the source reads or writes 32-bit fields.  Code that can
throw is modelled with `Option` (`none` = an exception escapes).
-/

/-! ## Byte-level helpers (Node Buffer reads/writes, big-endian) -/

/-- Big-endian interpretation of a byte list as an unsigned number. -/
def bytesToNatBE (bs : List Nat) : Nat :=
  bs.foldl (fun acc b => acc * 256 + b % 256) 0

/-- The four big-endian bytes of `n % 2^32` (Node `writeUInt32BE`). -/
def natToBytesBE4 (n : Nat) : List Nat :=
  [n / 2 ^ 24 % 256, n / 2 ^ 16 % 256, n / 2 ^ 8 % 256, n % 256]

/-- The slice `buffer[a..b)` (as in `Buffer.subarray` / `Buffer.toString` bounds). -/
def sliceBytes (buffer : List Nat) (a b : Nat) : List Nat :=
  (buffer.drop a).take (b - a)

/-- Single byte access `buffer[i]` (only used at guarded in-range offsets). -/
def byteAt (buffer : List Nat) (i : Nat) : Nat :=
  buffer.getD i 0

/-- Node `buffer.readUInt32BE(off)` for a guarded in-range offset. -/
def readUInt32BE (buffer : List Nat) (off : Nat) : Nat :=
  bytesToNatBE (sliceBytes buffer off (off + 4))

/-- Node `buffer.readInt32BE(off)`: two's-complement signed reading. -/
def readInt32BE (buffer : List Nat) (off : Nat) : Int :=
  let u := readUInt32BE buffer off
  if u < 2 ^ 31 then (u : Int) else (u : Int) - 2 ^ 32

/-- Node `buffer.writeInt32BE(i)` payload, for `i` in int32 range:
the four big-endian two's-complement bytes. -/
def writeInt32BE (i : Int) : List Nat :=
  natToBytesBE4 (i % 2 ^ 32).toNat

/-- `Math.ceil(n / 4) * 4`: round up to the next multiple of 4. -/
def align4 (n : Nat) : Nat :=
  ((n + 3) / 4) * 4

/-- Zero-pad a byte list to a 4-byte boundary
(`(4 - (len % 4)) % 4` padding bytes, as in `_encodeOSCMessage`). -/
def pad4 (bs : List Nat) : List Nat :=
  bs ++ List.replicate ((4 - bs.length % 4) % 4) 0

/-- Position of the first zero byte of a list, if any. -/
def findZeroIdx : List Nat → Option Nat
  | [] => none
  | b :: rest => if b == 0 then some 0 else (findZeroIdx rest).map (· + 1)

/-- JS `buffer.indexOf(0, off)`: the least index `≥ off` holding byte 0. -/
def indexOfZeroFrom (buffer : List Nat) (off : Nat) : Option Nat :=
  (findZeroIdx (buffer.drop off)).map (· + off)

/-! ## IEEE-754 helpers

`_encodeOSCMessage` calls `Number.isInteger` and `writeFloatBE`;
`_decodeOSCMessage` calls `readFloatBE`/`readDoubleBE`.  We model a JS
number canonically: a number whose value is an exact integer is carried as
`Int`; any other number is carried by a binary32 bit pattern (for values
that are exactly single-precision, e.g. everything `readFloatBE` can
produce) or by the eight bytes `readDoubleBE` read.  The helpers below
compute integrality and single-precision rounding from those patterns. -/

/-- Whether the binary32 with bit pattern `bits` has an exact integer value. -/
def f32IsInteger (bits : Nat) : Bool :=
  let e := bits / 2 ^ 23 % 2 ^ 8
  let m := bits % 2 ^ 23
  if e == 0xFF then false
  else if e == 0 then m == 0
  else if 150 ≤ e then true
  else if 127 ≤ e then m % 2 ^ (150 - e) == 0
  else false

/-- The integer value of a binary32 (meaningful when `f32IsInteger`). -/
def f32ToInt (bits : Nat) : Int :=
  let s := bits / 2 ^ 31
  let e := bits / 2 ^ 23 % 2 ^ 8
  let m := bits % 2 ^ 23
  let mag : Nat :=
    if e == 0 then 0
    else if 150 ≤ e then (2 ^ 23 + m) * 2 ^ (e - 150)
    else (2 ^ 23 + m) / 2 ^ (150 - e)
  if s == 1 then -(mag : Int) else (mag : Int)

/-- Whether the binary64 read from these 8 bytes has an exact integer value
(JS `Number.isInteger`). -/
def f64IsInteger (bytes : List Nat) : Bool :=
  let b := bytesToNatBE bytes
  let e := b / 2 ^ 52 % 2 ^ 11
  let m := b % 2 ^ 52
  if e == 0x7FF then false
  else if e == 0 then m == 0
  else if 1075 ≤ e then true
  else if 1023 ≤ e then m % 2 ^ (1075 - e) == 0
  else false

/-- Round `n / d` to the nearest integer, ties to even (`d > 0`). -/
def roundEvenDiv (n d : Nat) : Nat :=
  let q := n / d
  let r := n % d
  if 2 * r < d then q
  else if d < 2 * r then q + 1
  else if q % 2 == 0 then q else q + 1

/-- Multiply a natural by `2^shift` for a signed shift, rounding to nearest
even when shifting right. -/
def scaledRound (n : Nat) (shift : Int) : Nat :=
  if 0 ≤ shift then n * 2 ^ shift.toNat
  else roundEvenDiv n (2 ^ (-shift).toNat)

/-- Round the binary64 read from these 8 bytes to binary32
(round to nearest, ties to even), returning the bit pattern — the
conversion performed by Node `writeFloatBE` on a double. -/
def f64ToF32bits (bytes : List Nat) : Nat :=
  let b := bytesToNatBE bytes
  let s : Nat := b / 2 ^ 63
  let e : Nat := b / 2 ^ 52 % 2 ^ 11
  let m : Nat := b % 2 ^ 52
  if e == 0x7FF then
    if m == 0 then s * 2 ^ 31 + 0x7F800000 else 0x7FC00000
  else
    let n : Nat := if e == 0 then 2 * m else 2 ^ 52 + m
    if n == 0 then s * 2 ^ 31
    else
      let ee : Int := (if e == 0 then 1 else (e : Int)) - 1075
      let t : Int := (Nat.log2 n : Int) + ee
      if 128 ≤ t then s * 2 ^ 31 + 0x7F800000
      else if t < -126 then
        s * 2 ^ 31 + scaledRound n (ee + 149)
      else
        let f := scaledRound n (ee - t + 23)
        let candidate := (t + 126).toNat * 2 ^ 23 + f
        if 255 * 2 ^ 23 ≤ candidate then s * 2 ^ 31 + 0x7F800000
        else s * 2 ^ 31 + candidate

/-- UTF-8 bytes of a single UTF-16 code unit, as produced by
`Buffer.from(String.fromCharCode(u), "utf8")` (a lone surrogate becomes
the replacement character). -/
def utf8OfCodeUnit (u : Nat) : List Nat :=
  if u < 0x80 then [u]
  else if u < 0x800 then [0xC0 + u / 64, 0x80 + u % 64]
  else if 0xD800 ≤ u ∧ u ≤ 0xDFFF then [0xEF, 0xBF, 0xBD]
  else [0xE0 + u / 4096, 0x80 + u / 64 % 64, 0x80 + u % 64]

/-! ## The JS value domain seen by the codec -/

/-- The JavaScript values the OSC codec produces or consumes.
Strings and Buffers are carried as byte lists (UTF-8 for strings).
Numbers are canonical: `int` for integer-valued numbers
(`Number.isInteger` true), `f32` for a non-integer (or non-finite) number
that is exactly a binary32 — identified by its bit pattern — and
`f64` for a number read by `readDoubleBE`, identified by the 8 bytes read.
`timetag`, `rgba` and `midi` are the plain objects built by the decoder
for tags `t`, `r` and `m` (JS `typeof` is `"object"` for all three). -/
inductive JSVal where
  | int (i : Int)
  | f32 (bits : Nat)
  | f64 (bytes : List Nat)
  | str (bytes : List Nat)
  | bool (b : Bool)
  | null
  | undef
  | buf (bytes : List Nat)
  | timetag (seconds fraction : Nat)
  | rgba (r g b a : Nat)
  | midi (port status data1 data2 : Nat)
deriving DecidableEq, Repr

/-- The double read by `readFloatBE`, canonicalized: integer-valued
binary32 reads become `JSVal.int`. -/
def jsNumOfF32 (bits : Nat) : JSVal :=
  if f32IsInteger bits then .int (f32ToInt bits) else .f32 bits

/-! ## Encoder (`_encodeOSCMessage`, osc_websocket_server.ts lines 458–515) -/

/-- The per-argument loop of `_encodeOSCMessage`: builds the type-tag
characters (bytes) and the list of argument payload buffers.
`none` models the `RangeError` Node `writeInt32BE` throws when an
integer-valued number lies outside int32 range (the source checks only
`Number.isInteger`, not the range).  Objects (`timetag`/`rgba`/`midi`)
hit the unsupported-type branch: a warning is logged and they are
skipped. -/
def encodeArgs : List JSVal → Option (List Nat × List (List Nat))
  | [] => some ([], [])
  | a :: rest =>
    match a with
    | .int i =>
      if i < -(2 ^ 31 : Int) ∨ (2 ^ 31 : Int) ≤ i then none
      else (encodeArgs rest).map fun p => (0x69 :: p.1, writeInt32BE i :: p.2)
    | .f32 bits =>
      (encodeArgs rest).map fun p => (0x66 :: p.1, natToBytesBE4 bits :: p.2)
    | .f64 bytes =>
      (encodeArgs rest).map fun p =>
        (0x66 :: p.1, natToBytesBE4 (f64ToF32bits bytes) :: p.2)
    | .str s =>
      (encodeArgs rest).map fun p => (0x73 :: p.1, pad4 (s ++ [0]) :: p.2)
    | .bool b =>
      (encodeArgs rest).map fun p => ((if b then 0x54 else 0x46) :: p.1, p.2)
    | .null =>
      (encodeArgs rest).map fun p => (0x4E :: p.1, p.2)
    | .undef =>
      (encodeArgs rest).map fun p => (0x4E :: p.1, p.2)
    | .buf b =>
      if (2 ^ 32 : Nat) ≤ b.length then none
      else
        (encodeArgs rest).map fun p =>
          (0x62 :: p.1,
            (natToBytesBE4 b.length ++ b ++
              List.replicate ((4 - b.length % 4) % 4) 0) :: p.2)
    | .timetag _ _ => encodeArgs rest
    | .rgba _ _ _ _ => encodeArgs rest
    | .midi _ _ _ _ => encodeArgs rest

/-- `_encodeOSCMessage(path, args)`: padded NUL-terminated address,
padded type-tag string starting with `,`, then the argument payloads.
`none` models an escaping exception. -/
def encodeOSCMessage (path : List Nat) (args : List JSVal) : Option (List Nat) :=
  match encodeArgs args with
  | none => none
  | some (typeTag, argBuffers) =>
    some (pad4 (path ++ [0]) ++ pad4 (0x2C :: (typeTag ++ [0])) ++ argBuffers.flatten)

/-! ## Decoder (`_decodeOSCMessage`, osc_websocket_server.ts lines 302–452) -/

/-- The decoded result `{ path, args }`. -/
structure DecodedOSC where
  path : List Nat
  args : List JSVal
deriving DecidableEq, Repr

/-- One iteration of the type-tag `switch`: given the tag byte and the
cursor, produce the decoded value (or `none` when the case hit a guard
`break` or matched no value-producing case) and the new cursor.  Mirrors
lines 336–444 of the source, including the blob case advancing the cursor
past the size field before its payload guard. -/
def parseTag (buffer : List Nat) (t : Nat) (offset : Nat) : Option JSVal × Nat :=
  if t == 0x69 then
    if buffer.length < offset + 4 then (none, offset)
    else (some (.int (readInt32BE buffer offset)), offset + 4)
  else if t == 0x66 then
    if buffer.length < offset + 4 then (none, offset)
    else (some (jsNumOfF32 (readUInt32BE buffer offset)), offset + 4)
  else if t == 0x73 || t == 0x53 then
    match indexOfZeroFrom buffer offset with
    | none => (none, offset)
    | some strEnd => (some (.str (sliceBytes buffer offset strEnd)), align4 (strEnd + 1))
  else if t == 0x62 then
    if buffer.length < offset + 4 then (none, offset)
    else
      let blobSize := readUInt32BE buffer offset
      let off2 := offset + 4
      if buffer.length < off2 + blobSize then (none, off2)
      else (some (.buf (sliceBytes buffer off2 (off2 + blobSize))), align4 (off2 + blobSize))
  else if t == 0x68 then
    if buffer.length < offset + 8 then (none, offset)
    else
      (some (.int (readInt32BE buffer offset * 2 ^ 32 + readUInt32BE buffer (offset + 4))),
        offset + 8)
  else if t == 0x74 then
    if buffer.length < offset + 8 then (none, offset)
    else (some (.timetag (readUInt32BE buffer offset) (readUInt32BE buffer (offset + 4))),
      offset + 8)
  else if t == 0x64 then
    if buffer.length < offset + 8 then (none, offset)
    else (some (.f64 (sliceBytes buffer offset (offset + 8))), offset + 8)
  else if t == 0x63 then
    if buffer.length < offset + 4 then (none, offset)
    else (some (.str (utf8OfCodeUnit (readUInt32BE buffer offset % 2 ^ 16))), offset + 4)
  else if t == 0x72 then
    if buffer.length < offset + 4 then (none, offset)
    else
      (some (.rgba (byteAt buffer offset) (byteAt buffer (offset + 1))
        (byteAt buffer (offset + 2)) (byteAt buffer (offset + 3))), offset + 4)
  else if t == 0x6D then
    if buffer.length < offset + 4 then (none, offset)
    else
      (some (.midi (byteAt buffer offset) (byteAt buffer (offset + 1))
        (byteAt buffer (offset + 2)) (byteAt buffer (offset + 3))), offset + 4)
  else if t == 0x54 then (some (.bool true), offset)
  else if t == 0x46 then (some (.bool false), offset)
  else if t == 0x4E then (some .null, offset)
  else if t == 0x49 then (some (.f32 0x7F800000), offset)
  else (none, offset)

/-- The argument loop
`for (let i = 0; i < typeTag.length && offset < buffer.length; i++)`:
stops early only when the cursor has reached the end of the buffer,
otherwise runs `parseTag` for each tag character, pushing each produced
value. -/
def parseArgs (buffer : List Nat) : List Nat → Nat → List JSVal → List JSVal
  | [], _, acc => acc
  | t :: ts, offset, acc =>
    if buffer.length ≤ offset then acc
    else
      match parseTag buffer t offset with
      | (some v, off2) => parseArgs buffer ts off2 (acc ++ [v])
      | (none, off2) => parseArgs buffer ts off2 acc

/-- `_decodeOSCMessage(buffer)`: `none` when the buffer is shorter than
4 bytes or holds no NUL byte; otherwise the address up to the first NUL
and the arguments parsed from the type-tag section (empty when that
section is absent or does not start with `,`). -/
def decodeOSCMessage (buffer : List Nat) : Option DecodedOSC :=
  if buffer.length < 4 then none
  else
    match indexOfZeroFrom buffer 0 with
    | none => none
    | some addressEnd =>
      let path := sliceBytes buffer 0 addressEnd
      let offset := align4 (addressEnd + 1)
      if buffer.length ≤ offset then some ⟨path, []⟩
      else
        match indexOfZeroFrom buffer offset with
        | none => some ⟨path, []⟩
        | some typeTagEnd =>
          if byteAt buffer offset ≠ 0x2C then some ⟨path, []⟩
          else
            some ⟨path, parseArgs buffer (sliceBytes buffer (offset + 1) typeTagEnd)
              (align4 (typeTagEnd + 1)) []⟩


/-! ## WebSocket subscription matching
(`broadcastPathChanged` lines 100–133, `broadcastOSCMessage` lines 138–171) -/

/-- A connected WebSocket client: its `ws.readyState === WebSocket.OPEN`
status and its `subscribedPaths` set.  Paths are JS strings, modelled as
character lists. -/
structure WSClient where
  readyStateOpen : Bool
  subscribedPaths : List (List Char)

/-- The per-subscription test from the broadcast loops:
`path === subscribedPath || path.startsWith(subscribedPath + "/")`. -/
def pathMatchesSub (path sub : List Char) : Bool :=
  path == sub || (sub ++ ['/']).isPrefixOf path

/-- Whether one client receives a broadcast for `path`: the client's
socket is open, and either its subscription set is empty (default:
notify all) or some subscribed path matches.  This is the shared send
condition of `broadcastPathChanged` and `broadcastOSCMessage`. -/
def clientReceives (c : WSClient) (path : List Char) : Bool :=
  c.readyStateOpen &&
    (c.subscribedPaths.isEmpty || c.subscribedPaths.any fun sub => pathMatchesSub path sub)

/-! ## HTTP attribute queries (`_handleGet`, osc_query_server.ts lines
110–178 and part_001 lines 185–253) -/

/-- JSON values, for wire payloads. -/
inductive Json where
  | null
  | bool (b : Bool)
  | num (n : Int)
  | str (s : String)
  | arr (xs : List Json)
  | obj (fields : List (String × Json))

/-- A serialized node as the handler sees it: the wire JSON object of
spec §6, one optional field per documented attribute (`serialize()`
itself lives in osc_node.ts, outside src; the handler only reads the
resulting object). `ACCESS` carries its numeric payload. -/
structure SerializedNodeW where
  FULL_PATH : Option Json := none
  CONTENTS : Option Json := none
  TYPE : Option Json := none
  ACCESS : Option Nat := none
  RANGE : Option Json := none
  DESCRIPTION : Option Json := none
  TAGS : Option Json := none
  CRITICAL : Option Json := none
  CLIPMODE : Option Json := none
  VALUE : Option Json := none

/-- Property access `serialized[query]` for the valid attribute names. -/
def attrOf (n : SerializedNodeW) (q : String) : Option Json :=
  if q == "FULL_PATH" then n.FULL_PATH
  else if q == "CONTENTS" then n.CONTENTS
  else if q == "TYPE" then n.TYPE
  else if q == "ACCESS" then n.ACCESS.map fun a => Json.num (Int.ofNat a)
  else if q == "RANGE" then n.RANGE
  else if q == "DESCRIPTION" then n.DESCRIPTION
  else if q == "TAGS" then n.TAGS
  else if q == "CRITICAL" then n.CRITICAL
  else if q == "CLIPMODE" then n.CLIPMODE
  else if q == "VALUE" then n.VALUE
  else none

/-- The `VALID_ATTRIBUTES` list. -/
def VALID_ATTRIBUTES : List String :=
  ["FULL_PATH", "CONTENTS", "TYPE", "ACCESS", "RANGE", "DESCRIPTION", "TAGS",
    "CRITICAL", "CLIPMODE", "VALUE", "HOST_INFO"]

/-- The possible responses of `_handleGet` once the node exists. -/
inductive NodeQueryResponse where
  | badRequest
  | hostInfo
  | noContent
  | fullNode
  | attr (name : String) (value : Option Json)

/-- The query-handling tail of `_handleGet` for a resolved (existing)
node: rejects invalid attributes with 400, serves HOST_INFO, serves the
whole serialized node when no query is given, answers 204 when the query
is `VALUE` and the serialized `ACCESS` is 0 or 2, and otherwise responds
with the single projected attribute. -/
def handleNodeQuery (serialized : SerializedNodeW) (query : Option String) :
    NodeQueryResponse :=
  match query with
  | none => .fullNode
  | some q =>
    if ¬ VALID_ATTRIBUTES.contains q then .badRequest
    else if q == "HOST_INFO" then .hostInfo
    else
      match serialized.ACCESS with
      | some access =>
        if (access == 0 || access == 2) && q == "VALUE" then .noContent
        else .attr q (attrOf serialized q)
      | none => .attr q (attrOf serialized q)

/-! ## Service-name sanitization (`sanitizeName`, part_001 lines 71–132) -/

/-- Modelled from the platform builtin `String.prototype.normalize("NFD")`
used by `sanitizeName`: the Unicode canonical decomposition, given here
for the precomposed characters exercised by the specification's
sanitization scenario; characters without a canonical decomposition
(ASCII, the dotless ı, combining marks) map to themselves. -/
def nfdChar (c : Char) : List Char :=
  if c = 'ş' then ['s', Char.ofNat 0x327]
  else if c = 'ğ' then ['g', Char.ofNat 0x306]
  else if c = 'ü' then ['u', Char.ofNat 0x308]
  else if c = 'ç' then ['c', Char.ofNat 0x327]
  else if c = 'ö' then ['o', Char.ofNat 0x308]
  else [c]

/-- Membership in the combining diacritical marks block U+0300 to U+036F. -/
def isCombiningMark (c : Char) : Bool :=
  0x300 ≤ c.toNat && c.toNat ≤ 0x36F

/-- Membership in the character class `[a-zA-Z0-9-]`. -/
def isAllowedNameChar (c : Char) : Bool :=
  ('a' ≤ c && c ≤ 'z') || ('A' ≤ c && c ≤ 'Z') || ('0' ≤ c && c ≤ '9') || c == '-'

/-- JS `String.prototype.split` with a single-character separator. -/
def splitOnChar (sep : Char) : List Char → List (List Char)
  | [] => [[]]
  | c :: cs =>
    let r := splitOnChar sep cs
    if c = sep then [] :: r
    else
      match r with
      | [] => [[c]]
      | g :: gs => (c :: g) :: gs

/-- The regex replacement collapsing every run of hyphens to one hyphen. -/
def collapseHyphens : List Char → List Char
  | [] => []
  | c :: cs =>
    if c = '-' ∧ cs.head? = some '-' then collapseHyphens cs
    else c :: collapseHyphens cs

/-- The regex replacement deleting a trailing run of hyphens. -/
def dropTrailingHyphens (l : List Char) : List Char :=
  (l.reverse.dropWhile (· == '-')).reverse

/-- The regex replacement deleting leading and trailing hyphen runs. -/
def trimHyphens (l : List Char) : List Char :=
  dropTrailingHyphens (l.dropWhile (· == '-'))

/-- The regex replacement deleting a trailing run of hyphens and dots. -/
def dropTrailingHyphensDots (l : List Char) : List Char :=
  (l.reverse.dropWhile fun c => c == '-' || c == '.').reverse

/-- `sanitizeName(name)`.  `Math.random().toString(36).substring(2, 15)`
in the empty-name fallback is impure; the suffix it would produce is
passed in as `fallbackSuffix` (unused on any input that leaves at least
one label, as in all claims considered here). -/
def sanitizeName (fallbackSuffix : List Char) (name : List Char) : List Char :=
  let normalized := (name.flatMap nfdChar).filter fun c => ¬ isCombiningMark c
  let normalized := normalized.filter isAllowedNameChar
  let labels := (splitOnChar '.' normalized).filter fun label => label.length ≠ 0
  let processedLabels := labels.filterMap fun label =>
    let label := trimHyphens (collapseHyphens label)
    if label.length = 0 then none
    else
      let label := if 63 < label.length then dropTrailingHyphens (label.take 63) else label
      if label.length = 0 then none else some label
  let result := List.intercalate ['.'] processedLabels
  let result := if result.length = 0 then "OSCQuery-".toList ++ fallbackSuffix else result
  if 255 - 13 < result.length then
    let result := dropTrailingHyphensDots (result.take (255 - 13))
    if result.length = 0 then "OSCQuery".toList else result
  else result


/-! ## mDNS discovery dedup (`MDNSDiscovery._handleUp` lines 107–130 and
`_handleDown` lines 135–145, part_000) -/

/-- A `bonjour-service` browser event payload, with the fields
`_handleUp`/`_handleDown` read. `addresses` is optional
(`service.addresses?.forEach`). -/
structure MDNSService where
  protocol : String
  addresses : Option (List String)
  port : Nat
  name : String
  stype : String
  host : String
  txt : Option (List (String × String))
deriving DecidableEq, Repr

/-- The emitted `DiscoveredMDNSService` record. -/
structure DiscoveredMDNSService where
  address : String
  port : Nat
  name : String
  stype : String
  fullType : String
  host : String
  txt : List (String × String)
deriving DecidableEq, Repr

/-- The `_services` map, as its entry list (a JS `Map` keeps at most one
entry per key; the operations below only ever add an absent key). -/
abbrev ServicesMap := List (String × DiscoveredMDNSService)

/-- `` _getServiceKey: `${address}:${port}` ``. -/
def getServiceKey (address : String) (port : Nat) : String :=
  address ++ ":" ++ toString port

/-- `this._services.has(key)`. -/
def hasKey (st : ServicesMap) (k : String) : Bool :=
  st.any fun e => e.1 == k

/-- The body of the `service.addresses?.forEach` loop of `_handleUp`:
build the `DiscoveredMDNSService`, and only when the key is absent, add
it and emit `up`.  Returns the new map and the emitted records. -/
def upAddress (proto : String) (svc : MDNSService) (st : ServicesMap)
    (address : String) : ServicesMap × List DiscoveredMDNSService :=
  let key := getServiceKey address svc.port
  let info : DiscoveredMDNSService :=
    { address := address, port := svc.port, name := svc.name, stype := svc.stype,
      fullType := svc.stype ++ "._" ++ proto ++ ".local", host := svc.host,
      txt := svc.txt.getD [] }
  if hasKey st key then (st, [])
  else (st ++ [(key, info)], [info])

/-- `_handleUp(service)`: drop services of the wrong protocol, then run
`upAddress` over each address, threading the map. -/
def handleUp (proto : String) (st : ServicesMap) (svc : MDNSService) :
    ServicesMap × List DiscoveredMDNSService :=
  if svc.protocol ≠ proto then (st, [])
  else
    (svc.addresses.getD []).foldl
      (fun acc address =>
        let r := upAddress proto svc acc.1 address
        (r.1, acc.2 ++ r.2))
      (st, [])

/-- The body of the `service.addresses?.forEach` loop of `_handleDown`:
when the key is tracked, delete it and emit `down` with the tracked
record. -/
def downAddress (st : ServicesMap) (port : Nat) (address : String) :
    ServicesMap × List DiscoveredMDNSService :=
  let key := getServiceKey address port
  match st.find? (fun e => e.1 == key) with
  | some e => (st.eraseP (fun x => x.1 == key), [e.2])
  | none => (st, [])

/-- `_handleDown(service)` (no protocol filter in the source). -/
def handleDown (st : ServicesMap) (svc : MDNSService) :
    ServicesMap × List DiscoveredMDNSService :=
  (svc.addresses.getD []).foldl
    (fun acc address =>
      let r := downAddress acc.1 svc.port address
      (r.1, acc.2 ++ r.2))
    (st, [])

/-- A browser callback within one session. -/
inductive BrowserEvent where
  | up (svc : MDNSService)
  | down (svc : MDNSService)

/-- Apply one browser callback to the `_services` map. -/
def applyEvent (proto : String) (st : ServicesMap) : BrowserEvent → ServicesMap
  | .up svc => (handleUp proto st svc).1
  | .down svc => (handleDown st svc).1

/-- The `_services` map after a sequence of browser callbacks in one
session (the map starts empty). -/
def runEvents (proto : String) (evs : List BrowserEvent) : ServicesMap :=
  evs.foldl (applyEvent proto) []

/-- The keys of the `_services` map. -/
def mapKeys (st : ServicesMap) : List String :=
  st.map Prod.fst

/-! ## OSC type-string parser (`parseTypeString`, part_000 lines 302–336) -/

/-- Modelled from the spec: the simple OSC types of `osc_types.ts`
(not under src), spec §4.A. -/
inductive OSCTypeSimple where
  | INT | FLOAT | STRING | BLOB | INT64 | TIMETAG | DOUBLE | CHAR
  | RGBA | MIDI | TRUE | FALSE | NIL | INFINITUM
deriving DecidableEq, Repr

/-- Modelled from the spec: `OSCType` of `osc_types.ts` (not under src),
spec §3/§4.A — a simple type or a nested ordered sequence. -/
inductive OSCType where
  | simple (t : OSCTypeSimple)
  | arr (ts : List OSCType)

/-- Modelled from the spec: `OSCTypeSimpleMap` of `osc_types.ts` (not
under src), the tag table of spec §4.A; `none` for characters not in the
map. -/
def simpleTypeOfChar (c : Char) : Option OSCTypeSimple :=
  if c = 'i' then some .INT
  else if c = 'f' then some .FLOAT
  else if c = 's' then some .STRING
  else if c = 'S' then some .STRING
  else if c = 'b' then some .BLOB
  else if c = 'h' then some .INT64
  else if c = 't' then some .TIMETAG
  else if c = 'd' then some .DOUBLE
  else if c = 'c' then some .CHAR
  else if c = 'r' then some .RGBA
  else if c = 'm' then some .MIDI
  else if c = 'T' then some .TRUE
  else if c = 'F' then some .FALSE
  else if c = 'N' then some .NIL
  else if c = 'I' then some .INFINITUM
  else none

/-- The scan state of `parseTypeString`: the collected tokens (a simple
tag character or a bracketed literal), the literal being accumulated,
and the bracket depth. -/
structure TSState where
  tokens : List (Sum Char (List Char))
  current : List Char
  depth : Nat

/-- One character of the `parseTypeString` scan loop. -/
def tsStep (st : TSState) (c : Char) : TSState :=
  if c = '[' ∧ st.depth = 0 then { st with current := [], depth := 1 }
  else if c = '[' ∧ 0 < st.depth then
    { st with depth := st.depth + 1, current := st.current ++ [c] }
  else if c = ']' ∧ 0 < st.depth then
    if st.depth = 1 then { st with depth := 0, tokens := st.tokens ++ [Sum.inr st.current] }
    else { st with depth := st.depth - 1, current := st.current ++ [c] }
  else if (simpleTypeOfChar c).isSome then
    if st.depth = 0 then { st with tokens := st.tokens ++ [Sum.inl c] }
    else { st with current := st.current ++ [c] }
  else st

/-- The whole scan of `parseTypeString` over the input. -/
def tokenizeTS (s : List Char) : TSState :=
  s.foldl tsStep ⟨[], [], 0⟩

theorem tsStep_inv (n : Nat) (st : TSState) (c : Char)
    (h1 : ∀ lit, Sum.inr lit ∈ st.tokens → lit.length + 2 ≤ n)
    (h2 : 0 < st.depth → st.current.length + 1 ≤ n) :
    (∀ lit, Sum.inr lit ∈ (tsStep st c).tokens → lit.length + 2 ≤ n + 1) ∧
      (0 < (tsStep st c).depth → (tsStep st c).current.length + 1 ≤ n + 1) := by
  have hmono : ∀ lit, Sum.inr lit ∈ st.tokens → lit.length + 2 ≤ n + 1 :=
    fun lit h => Nat.le_succ_of_le (h1 lit h)
  unfold tsStep
  split
  next hA =>
    refine ⟨hmono, fun _ => ?_⟩
    simp only [List.length_nil]
    omega
  next hA =>
    split
    next hB =>
      refine ⟨hmono, fun _ => ?_⟩
      have := h2 hB.2
      simp only [List.length_append, List.length_cons, List.length_nil]
      omega
    next hB =>
      split
      next hC =>
        split
        next hD =>
          refine ⟨?_, fun hd => by simp at hd⟩
          intro lit hmem
          rcases List.mem_append.mp hmem with hmem | hmem
          · exact hmono lit hmem
          · have heq : lit = st.current := by simpa using hmem
            subst heq
            have := h2 hC.2
            omega
        next hD =>
          refine ⟨hmono, fun _ => ?_⟩
          have := h2 hC.2
          simp only [List.length_append, List.length_cons, List.length_nil]
          omega
      next hC =>
        split
        next hE =>
          split
          next hF =>
            refine ⟨?_, fun hd => ?_⟩
            · intro lit hmem
              rcases List.mem_append.mp hmem with hmem | hmem
              · exact hmono lit hmem
              · simp at hmem
            · simp only at hd
              omega
          next hF =>
            refine ⟨hmono, fun hd => ?_⟩
            have := h2 (Nat.pos_of_ne_zero hF)
            simp only [List.length_append, List.length_cons, List.length_nil]
            omega
        next hE =>
          exact ⟨hmono, fun hd => Nat.le_succ_of_le (h2 hd)⟩

theorem tsFold_inv (s : List Char) (n : Nat) (st : TSState)
    (h1 : ∀ lit, Sum.inr lit ∈ st.tokens → lit.length + 2 ≤ n)
    (h2 : 0 < st.depth → st.current.length + 1 ≤ n) :
    ∀ lit, Sum.inr lit ∈ (s.foldl tsStep st).tokens → lit.length + 2 ≤ n + s.length := by
  induction s generalizing st n with
  | nil =>
    intro lit hmem
    simpa using h1 lit hmem
  | cons c cs ih =>
    intro lit hmem
    have step := tsStep_inv n st c h1 h2
    have := ih (n + 1) (tsStep st c) step.1 step.2 lit (by simpa using hmem)
    simp only [List.length_cons]
    omega

theorem mem_tokens_length (s : List Char) (lit : List Char)
    (hmem : Sum.inr lit ∈ (tokenizeTS s).tokens) : lit.length < s.length := by
  have := tsFold_inv s 0 ⟨[], [], 0⟩ (by intro lit h; cases h) (by intro h; cases h) lit hmem
  omega

/-- `parseTypeString(type_string)`: map each token — a simple tag to its
simple type (the tag is in the map by construction, `.getD` supplies an
unreachable default), a bracketed literal to its recursive parse. -/
def parseTypeString (s : List Char) : List OSCType :=
  (tokenizeTS s).tokens.attach.map
    (fun tok =>
      match tok with
      | ⟨Sum.inl c, _⟩ => OSCType.simple ((simpleTypeOfChar c).getD OSCTypeSimple.INT)
      | ⟨Sum.inr lit, _⟩ => OSCType.arr (parseTypeString lit))
termination_by s.length
decreasing_by
  rename_i hmem
  exact mem_tokens_length s lit (by simpa using hmem)

/-! ## Discovery deserializer argument attachment
(`deserializeMethodNode` lines 354–403 and `deserializeRange` lines
338–352, part_000).

The wire JSON distinguishes three states for an entry of the parallel
arrays `RANGE`/`CLIPMODE`/`VALUE` at index `i`: a present value, a
literal `null`, and `undefined` (the index is beyond the array).  An
entry of a modelled array is therefore `Option`-valued (`none` = JSON
null) and is read with `List.get?` (`none` = `undefined`). -/

/-- A `SerializedRange` object `MIN?: ..., MAX?: ..., VALS?: ...`. -/
structure SerializedRangeObj where
  MIN : Option Json := none
  MAX : Option Json := none
  VALS : Option (List Json) := none

/-- A `SerializedRange`: an object or a nested array whose entries may be
null. -/
inductive SRange where
  | obj (o : SerializedRangeObj)
  | arr (xs : List (Option SRange))

/-- The deserialized `OSCQRange`. -/
inductive OSCQRange where
  | nullR
  | range (min max : Option Json) (vals : Option (List Json))
  | arr (xs : List OSCQRange)

/-- `deserializeRange(range)`: arrays map recursively, `null` stays null,
an object becomes `{min, max, vals}`.  The input is `Option`-valued
because the source also reaches this function with `null` entries of
nested arrays. -/
def deserializeRange : Option SRange → OSCQRange
  | some (.arr xs) => .arr (xs.attach.map fun r => deserializeRange r.1)
  | some (.obj o) => .range o.MIN o.MAX o.VALS
  | none => .nullR
termination_by r => sizeOf r
decreasing_by
  have h := List.sizeOf_lt_of_mem r.2
  simp only [Option.some.sizeOf_spec, SRange.arr.sizeOf_spec]
  omega

/-- An `OSCMethodArgument` as built by the deserializer. -/
structure OSCMethodArgument where
  type : OSCType
  range : Option OSCQRange := none
  clipmode : Option String := none
  value : Option Json := none

/-- The fields of a `SerializedNode` that the argument loop of
`deserializeMethodNode` reads. -/
structure SerializedMethodFields where
  TYPE : Option (List Char) := none
  RANGE : Option (List (Option SRange)) := none
  CLIPMODE : Option (List (Option String)) := none
  VALUE : Option (List Json) := none

/-- One iteration of the argument loop (lines 373–391): the descriptor
for `arg_types[i]`.  `RANGE[i]` is attached when `RANGE` is present and
the entry is not `null` — when the entry is `undefined` (index out of
range) that test passes and `deserializeRange` throws reading `.MIN` of
`undefined`, modelled as `none`.  `CLIPMODE[i]` is attached when truthy
(a non-empty string).  `VALUE[i]` is attached whenever it is not
`undefined`, so a `null` entry is attached. -/
def mkMethodArg (node : SerializedMethodFields) (t : OSCType) (i : Nat) :
    Option OSCMethodArgument :=
  let rangeStep : Option (Option OSCQRange) :=
    match node.RANGE with
    | none => some none
    | some arr =>
      match arr[i]? with
      | none => none
      | some none => some none
      | some (some r) => some (some (deserializeRange (some r)))
  match rangeStep with
  | none => none
  | some rng =>
    let clip : Option String :=
      match node.CLIPMODE with
      | none => none
      | some arr =>
        match arr[i]? with
        | some (some s) => if s.length ≠ 0 then some s else none
        | _ => none
    let value : Option Json :=
      match node.VALUE with
      | none => none
      | some arr => arr[i]?
    some { type := t, range := rng, clipmode := clip, value := value }

/-- The argument loop `for (let i = 0; i < arg_types.length; i++)`,
pushing one descriptor per parsed type; `none` models the `TypeError`
escaping from `deserializeRange` on an `undefined` entry. -/
def buildMethodArgs (node : SerializedMethodFields) :
    List OSCType → Nat → Option (List OSCMethodArgument)
  | [], _ => some []
  | t :: ts, i =>
    match mkMethodArg node t i with
    | none => none
    | some a => (buildMethodArgs node ts (i + 1)).map (a :: ·)

/-- The `method_arguments` computation of `deserializeMethodNode`
(lines 364–392): `undefined` without a `TYPE`, otherwise the loop over
`parseTypeString(node.TYPE)` from index 0.  (The defensive
`if (!Array.isArray(arg_types))` re-wrap is dead code — the parse always
returns an array — and is not modelled.)  The outer `Option` models an
escaping exception. -/
def deserializeMethodArguments (node : SerializedMethodFields) :
    Option (Option (List OSCMethodArgument)) :=
  match node.TYPE with
  | none => some none
  | some ts => (buildMethodArgs node (parseTypeString ts) 0).map some

/-! ## The method tree (`addMethod`/`removeMethod`,
osc_query_server.ts lines 300–349 and part_001 lines 431–480).

The node class itself (`osc_node.ts`) is not under src.  Modelled from
the spec: node attributes and the *empty* predicate (spec §3), and the
operations `getOrCreateChild`, `setOpts` (replace all declared
attributes; an empty option set clears the node to a pure container),
`removeChild` (spec §4.B).  `access` uses the numeric `OSCQAccess`
values, `NO_VALUE = 0`. -/

/-- Modelled from the spec: the declared attributes of a node
(spec §3); `none` is an unset attribute. -/
structure NodeOpts where
  description : Option (List Char) := none
  access : Option Nat := none
  tags : Option (List (List Char)) := none
  critical : Option Bool := none
  arguments : Option (List OSCMethodArgument) := none

/-- A node: its declared attributes and its ordered child map. -/
inductive OTree where
  | mk (opts : NodeOpts) (children : List (List Char × OTree))

/-- The attributes of a node. -/
def OTree.opts : OTree → NodeOpts
  | .mk o _ => o

/-- The child map of a node. -/
def OTree.children : OTree → List (List Char × OTree)
  | .mk _ c => c

/-- `hasChild`/`getChild` on the child map. -/
def lookupChild (children : List (List Char × OTree)) (s : List Char) : Option OTree :=
  (children.find? fun e => e.1 == s).map (·.2)

/-- Replace the subtree bound to an existing child name. -/
def replaceChild (children : List (List Char × OTree)) (s : List Char) (c : OTree) :
    List (List Char × OTree) :=
  children.map fun e => if e.1 == s then (s, c) else e

/-- `removeChild(seg)`: drop the entry with that name. -/
def removeChildEntry (children : List (List Char × OTree)) (s : List Char) :
    List (List Char × OTree) :=
  children.eraseP fun e => e.1 == s

/-- Modelled from the spec: `isEmpty()` — the access is unset or
`NO_VALUE`, and no arguments, no children, and no other attribute is set
(spec §3). -/
def isEmptyNode : OTree → Bool
  | .mk opts children =>
    (match opts.access with | none => true | some a => a == 0) &&
      opts.arguments.isNone && children.isEmpty && opts.description.isNone &&
      opts.tags.isNone && opts.critical.isNone

/-- `path.split("/").filter(p => p !== "")`. -/
def splitPath (path : List Char) : List (List Char) :=
  (splitOnChar '/' path).filter fun p => p.length ≠ 0

/-- `_getPathForNode`: `"/" + components.join("/")`. -/
def renderPath (comps : List (List Char)) : List Char :=
  '/' :: List.intercalate ['/'] comps

/-- `_getNodeForPath`: walk the segments from the root; `none` on a
missing child. -/
def resolvePath : OTree → List (List Char) → Option OTree
  | t, [] => some t
  | t, s :: rest =>
    match lookupChild t.children s with
    | some c => resolvePath c rest
    | none => none

/-- `addMethod(path, params)` on the tree: walk the split path with
`getOrCreateChild` (a missing child is created as an empty container),
then `setOpts(params)` on the final node, replacing its attributes. -/
def insertPath : OTree → List (List Char) → NodeOpts → OTree
  | .mk _ children, [], params => .mk params children
  | .mk opts children, s :: rest, params =>
    match lookupChild children s with
    | some c => .mk opts (replaceChild children s (insertPath c rest params))
    | none => .mk opts (children ++ [(s, insertPath (.mk {} []) rest params)])

/-- `addMethod` returns the new tree and the `PATH_CHANGED` broadcasts it
issues. -/
def addMethod (t : OTree) (path : List Char) (params : NodeOpts) :
    OTree × List (List Char) :=
  (insertPath t (splitPath path) params, [path])

/-- The `removeMethod` walk: at the target, `setOpts({})` clears the
attributes (children kept); then, returning toward the root, a parent
whose child’s subtree reported *deleted* removes that child, broadcasts
the parent’s own path, and reports itself deleted when it has become
empty — the loop
`while (node.parent != null && node.isEmpty())` of the source.  Returns
(updated node, delete-me flag for the caller, broadcasts so far);
`comps` is the component path of the current node. -/
def pruneWalk : OTree → List (List Char) → List (List Char) →
    OTree × Bool × List (List Char)
  | .mk _ children, [], _ =>
    let t := OTree.mk {} children
    (t, isEmptyNode t, [])
  | .mk opts children, s :: rest, comps =>
    match lookupChild children s with
    | none => (.mk opts children, false, [])
    | some c =>
      let r := pruneWalk c rest (comps ++ [s])
      if r.2.1 then
        let t := OTree.mk opts (removeChildEntry children s)
        (t, isEmptyNode t, r.2.2 ++ [renderPath comps])
      else
        (.mk opts (replaceChild children s r.1), false, r.2.2)

/-- `removeMethod(path)`: no-op when the path does not resolve; otherwise
clear and prune, then broadcast `PATH_CHANGED` for the original path
after the per-parent broadcasts. -/
def removeMethod (t : OTree) (path : List Char) : OTree × List (List Char) :=
  let segs := splitPath path
  match resolvePath t segs with
  | none => (t, [])
  | some _ =>
    let r := pruneWalk t segs []
    (r.1, r.2.2 ++ [path])

/-- Modelled from the spec: a node's children form a mapping from segment
name to node (spec §3, backed by a JS `Map`), so the entry names at every
node are pairwise distinct.  Every tree built through
`getOrCreateChild`/`removeChild` satisfies this invariant. -/
inductive WFTree : OTree → Prop where
  | mk : ∀ (opts : NodeOpts) (children : List (List Char × OTree)),
      (children.map Prod.fst).Nodup →
      (∀ e ∈ children, WFTree e.2) →
      WFTree (OTree.mk opts children)

/-- Whether the node at the head of this path *becomes empty* under
`removeMethod`'s clear-and-prune cascade along `segs`: the target (empty
path) is cleared and is then empty exactly when it has no children; an
ancestor becomes empty exactly when the child on the path becomes empty
(and is hence deleted by the walk) and the node without that child
satisfies `isEmpty()`. -/
def becomesEmpty : OTree → List (List Char) → Bool
  | .mk _ children, [] => children.isEmpty
  | .mk opts children, s :: rest =>
    match lookupChild children s with
    | none => false
    | some c =>
      becomesEmpty c rest && isEmptyNode (OTree.mk opts (removeChildEntry children s))

/-! ## Ancillary definitions for the statements below -/

/-- The type-tag characters the specification's selection rules assign to
one argument (written from the spec's encoding contract §4.C for
comparison with the encoder): `i` for an integer-valued number, `f` for
any other number, `s` for a string, `T`/`F` for booleans, `N` for
null/undefined, `b` for a Buffer, and nothing for a skipped unsupported
value. -/
def tagCharsOf : JSVal → List Nat
  | .int _ => [0x69]
  | .f32 _ => [0x66]
  | .f64 _ => [0x66]
  | .str _ => [0x73]
  | .bool b => [if b then 0x54 else 0x46]
  | .null => [0x4E]
  | .undef => [0x4E]
  | .buf _ => [0x62]
  | .timetag _ _ => []
  | .rgba _ _ _ _ => []
  | .midi _ _ _ _ => []

/-- Whether some argument makes `_encodeOSCMessage` throw: an
integer-valued number outside int32 range (`writeInt32BE`), or a Buffer
whose length does not fit the blob size field (`writeUInt32BE`;
unreachable for real Node buffers). -/
def encodeThrows (args : List JSVal) : Bool :=
  args.any fun v =>
    match v with
    | .int i => decide (i < -(2 ^ 31 : Int) ∨ (2 ^ 31 : Int) ≤ i)
    | .buf b => decide ((2 ^ 32 : Nat) ≤ b.length)
    | _ => false

/-- The tree at server construction: the root node gets
`description = rootDescription || "root node"` and
`access = OSCQAccess.NO_VALUE` (constructor, part_001 lines 150–153). -/
def rootTree : OTree :=
  .mk { description := some "root node".toList, access := some 0 } []

/-- The remove-cascade scenario, step 1:
`addMethod("/g/h", { arguments: [{ type: INT }] })`. -/
def treeAfterAdd : OTree :=
  (addMethod rootTree "/g/h".toList { arguments := some [{ type := .simple .INT }] }).1

/-- The remove-cascade scenario, step 2: `removeMethod("/g/h")`, giving
the final tree and the `PATH_CHANGED` broadcasts of the removal. -/
def removeResult : OTree × List (List Char) :=
  removeMethod treeAfterAdd "/g/h".toList

/-- The stop-at-a-non-empty-ancestor scenario, step 1: add both `/g/k`
and `/g/h`, so `/g` keeps the child `k` after `/g/h` is removed. -/
def treeAfterAddTwo : OTree :=
  (addMethod (addMethod rootTree "/g/k".toList
    { arguments := some [{ type := .simple .INT }] }).1 "/g/h".toList
    { arguments := some [{ type := .simple .INT }] }).1

/-- The stop scenario, step 2: `removeMethod("/g/h")` on that tree — the
walk deletes `/g/h`, finds `/g` non-empty (it still has `k`) and stops. -/
def removeResultStop : OTree × List (List Char) :=
  removeMethod treeAfterAddTwo "/g/h".toList

/-- The serialized node of the C6 counterexample: `TYPE = "i"` with a
single `null` entry in `VALUE`. -/
def nullValueNode : SerializedMethodFields :=
  { TYPE := some ['i'], VALUE := some [Json.null] }

/-! ## Codec lemmas -/

theorem findZeroIdx_eq_none_iff (l : List Nat) : findZeroIdx l = none ↔ ¬ (0 : Nat) ∈ l := by
  induction l with
  | nil => simp [findZeroIdx]
  | cons b rest ih =>
    by_cases hb : b = 0
    · subst hb
      simp [findZeroIdx]
    · have hb2 : ¬ ((0 : Nat) = b) := fun h => hb h.symm
      simp only [findZeroIdx, beq_iff_eq, List.mem_cons]
      rw [if_neg hb, Option.map_eq_none', ih]
      tauto

theorem findZeroIdx_take (l : List Nat) :
    ∀ i, findZeroIdx l = some i → l.take i = l.takeWhile fun x => x ≠ 0 := by
  induction l with
  | nil => intro i h; cases h
  | cons b rest ih =>
    intro i h
    by_cases hb : b = 0
    · subst hb
      simp [findZeroIdx] at h
      subst h
      simp [List.takeWhile]
    · simp only [findZeroIdx, beq_iff_eq, hb, if_false, Option.map_eq_some'] at h
      rcases h with ⟨j, hj, rfl⟩
      simp only [List.take_succ_cons, List.takeWhile]
      have : (decide (b ≠ 0)) = true := by simpa using hb
      rw [this]
      simp [ih j hj]

theorem indexOfZeroFrom_zero (b : List Nat) : indexOfZeroFrom b 0 = findZeroIdx b := by
  cases h : findZeroIdx b <;> simp [indexOfZeroFrom, h]

/-- The decoder is total; it answers `none` exactly when the buffer is
shorter than 4 bytes or holds no NUL, and otherwise its `path` is the
byte run before the first NUL. -/
theorem decodeOSCMessage_map_path (b : List Nat) :
    (decodeOSCMessage b).map DecodedOSC.path =
      (if b.length < 4 ∨ ¬ (0 : Nat) ∈ b then none
        else some (b.takeWhile fun x => x ≠ 0)) := by
  unfold decodeOSCMessage
  rw [indexOfZeroFrom_zero]
  by_cases h4 : b.length < 4
  · simp [h4]
  · rcases hz : findZeroIdx b with _ | idx
    · have hnm : ¬ (0 : Nat) ∈ b := (findZeroIdx_eq_none_iff b).mp hz
      simp [h4, hnm]
    · have hmem : (0 : Nat) ∈ b := by
        by_contra hn
        rw [(findZeroIdx_eq_none_iff b).mpr hn] at hz
        exact Option.noConfusion hz
      have hpath : sliceBytes b 0 idx = b.takeWhile fun x => x ≠ 0 := by
        simpa [sliceBytes] using findZeroIdx_take b idx hz
      have hrhs : (if b.length < 4 ∨ ¬ (0 : Nat) ∈ b then (none : Option (List Nat))
          else some (b.takeWhile fun x => x ≠ 0)) = some (b.takeWhile fun x => x ≠ 0) :=
        if_neg (by simp [h4, hmem])
      rw [hrhs, if_neg h4]
      simp only [hz]
      split
      · simp [hpath]
      · split
        · simp [hpath]
        · split
          · simp [hpath]
          · simp [hpath]
theorem parseArgs_extends_acc (buffer : List Nat) (tags : List Nat) :
    ∀ (offset : Nat) (acc : List JSVal), acc <+: parseArgs buffer tags offset acc := by
  induction tags with
  | nil =>
    intro offset acc
    simp [parseArgs]
  | cons t ts ih =>
    intro offset acc
    unfold parseArgs
    by_cases hle : buffer.length ≤ offset
    · simp [hle]
    · rw [if_neg hle]
      rcases hpt : parseTag buffer t offset with ⟨v, off2⟩
      cases v with
      | some w =>
        exact List.IsPrefix.trans (List.prefix_append acc [w]) (ih off2 (acc ++ [w]))
      | none =>
        exact ih off2 acc

/-- C10: the OSC binary decoder is total and returns null exactly when
the buffer is shorter than 4 bytes or contains no NUL byte; on every
other buffer it returns a result whose path is the byte run before the
first NUL (totality itself is by construction: `decodeOSCMessage` is a
total function). -/
theorem decoder_total_null_condition (b : List Nat) :
    (decodeOSCMessage b = none ↔ b.length < 4 ∨ ¬ (0 : Nat) ∈ b) ∧
      (decodeOSCMessage b).map DecodedOSC.path =
        (if b.length < 4 ∨ ¬ (0 : Nat) ∈ b then none
          else some (b.takeWhile fun x => x ≠ 0)) := by
  refine ⟨?_, decodeOSCMessage_map_path b⟩
  have h := decodeOSCMessage_map_path b
  constructor
  · intro hnone
    rw [hnone] at h
    by_contra hcond
    rw [if_neg hcond] at h
    exact Option.noConfusion h
  · intro hcond
    rw [if_pos hcond] at h
    exact Option.map_eq_none'.mp h

/-- C4 counterexample: a buffer whose type tag is `,is` but whose tail
holds only the two bytes of a string argument.  The `i` tag is truncated
(needs 4 bytes, 2 remain), yet the decoder does not stop there: it skips
the tag and still decodes the later string argument, so the result is
not the prefix of arguments decoded before the truncated tag (that
prefix is empty). -/
theorem decode_continues_after_truncated_tag :
    decodeOSCMessage [0x2F, 0x61, 0, 0, 0x2C, 0x69, 0x73, 0, 0x41, 0] =
      some ⟨[0x2F, 0x61], [JSVal.str [0x41]]⟩ ∧
      [JSVal.str [0x41]] ≠ ([] : List JSVal) := by
  decide

/-- C4 (amended): a truncated tag never makes the decoder reject the
packet or discard already-decoded arguments — the accumulated arguments
are always a prefix of the final result, a truncated fixed-size tag
(here `i`) produces no value and leaves the cursor unchanged so later
tags may still decode, and the decoder returns a non-null result for
every buffer with at least 4 bytes and a NUL byte. -/
theorem truncation_keeps_decoded_tail_continues (buffer tags : List Nat)
    (offset : Nat) (acc : List JSVal) (b : List Nat) :
    acc <+: parseArgs buffer tags offset acc ∧
      (buffer.length < offset + 4 → parseTag buffer 0x69 offset = (none, offset)) ∧
      (decodeOSCMessage b ≠ none ↔ ¬ (b.length < 4 ∨ ¬ (0 : Nat) ∈ b)) := by
  refine ⟨parseArgs_extends_acc buffer tags offset acc, ?_, ?_⟩
  · intro htr
    simp [parseTag, htr]
  · have h := decodeOSCMessage_map_path b
    constructor
    · intro hne hcond
      rw [if_pos hcond] at h
      exact hne (Option.map_eq_none'.mp h)
    · intro hcond hnone
      rw [hnone, if_neg hcond] at h
      exact Option.noConfusion h

theorem truncation_keeps_decoded_tail_continues_witness :
    parseTag [0x2F, 0x61, 0, 0, 0x2C, 0x69, 0x73, 0, 0x41, 0] 0x69 8 = (none, 8) :=
  (truncation_keeps_decoded_tail_continues
    [0x2F, 0x61, 0, 0, 0x2C, 0x69, 0x73, 0, 0x41, 0] [] 8 []
    [0x2F, 0x61, 0, 0, 0x2C, 0x69, 0x73, 0, 0x41, 0]).2.1 (by decide)

/-- C1: the claimed round-trip `decode(encode(M)) == M` fails on the code
for the supported message `("/a", [true])`: the encoder produces the
well-formed 8-byte packet below (length a multiple of 4), but the
decoder's loop guard `offset < buffer.length` exits before the trailing
zero-payload `T` tag, so the boolean argument is lost. -/
theorem roundtrip_drops_trailing_boolean :
    encodeOSCMessage [0x2F, 0x61] [JSVal.bool true] =
      some [0x2F, 0x61, 0, 0, 0x2C, 0x54, 0, 0] ∧
      decodeOSCMessage [0x2F, 0x61, 0, 0, 0x2C, 0x54, 0, 0] =
        some ⟨[0x2F, 0x61], []⟩ ∧
      ([] : List JSVal) ≠ [JSVal.bool true] ∧
      (8 : Nat) % 4 = 0 := by
  decide

/-- C3 counterexample: `2^31` is an exact integer outside int32 range;
the encoder still takes the INT branch (`Number.isInteger` alone is
checked) and `writeInt32BE` throws, so encoding fails instead of
encoding the value as FLOAT. -/
theorem encode_throws_on_big_int :
    encodeOSCMessage [0x2F, 0x61] [JSVal.int 2147483648] = none := by
  decide

theorem encodeThrows_cons (a : JSVal) (rest : List JSVal) :
    encodeThrows (a :: rest) =
      ((match a with
        | .int i => decide (i < -(2 ^ 31 : Int) ∨ (2 ^ 31 : Int) ≤ i)
        | .buf b => decide ((2 ^ 32 : Nat) ≤ b.length)
        | _ => false) || encodeThrows rest) := by
  simp [encodeThrows]

/-- C3 (amended): the type tag the encoder builds selects `i` for every
integer-valued number regardless of magnitude and `f` for every other
number; unsupported (object) arguments are skipped, and encoding fails
(throws) exactly when some integer-valued argument lies outside int32
range (or a blob length overflows its 32-bit size field, impossible for
real Node buffers). -/
theorem encoder_tag_selection (args : List JSVal) :
    ((encodeArgs args).map Prod.fst =
      (if encodeThrows args then none else some (args.map tagCharsOf).flatten)) ∧
      (encodeThrows args = true ↔ ∃ v ∈ args,
        (∃ i, v = JSVal.int i ∧ ((i : Int) < -(2 ^ 31) ∨ (2 ^ 31 : Int) ≤ i)) ∨
          (∃ bs, v = JSVal.buf bs ∧ (2 ^ 32 : Nat) ≤ bs.length)) := by
  constructor
  · induction args with
    | nil => simp [encodeArgs, encodeThrows]
    | cons a rest ih =>
      rcases h : encodeArgs rest with _ | p
      · have hthr : encodeThrows rest = true := by
          rw [h] at ih
          by_contra hf
          rw [Bool.not_eq_true] at hf
          rw [hf] at ih
          simp at ih
        cases a <;>
          simp [encodeArgs, h, encodeThrows_cons, hthr, tagCharsOf]
      · obtain ⟨tg, bufs⟩ := p
        rw [h] at ih
        have hthr : encodeThrows rest = false := by
          by_contra hf
          rw [Bool.not_eq_false] at hf
          rw [hf] at ih
          simp at ih
        rw [hthr] at ih
        have htg : tg = (rest.map tagCharsOf).flatten := by
          simpa using ih
        subst htg
        cases a <;>
          simp [encodeArgs, h, encodeThrows_cons, hthr, tagCharsOf]
        all_goals split <;> simp
  · simp only [encodeThrows, List.any_eq_true]
    constructor
    · rintro ⟨v, hv, hm⟩
      refine ⟨v, hv, ?_⟩
      cases v with
      | int i =>
        left
        refine ⟨i, rfl, ?_⟩
        simpa using hm
      | buf bs =>
        right
        refine ⟨bs, rfl, ?_⟩
        simpa using hm
      | f32 bits => simp at hm
      | f64 bytes => simp at hm
      | str bytes => simp at hm
      | bool b => simp at hm
      | null => simp at hm
      | undef => simp at hm
      | timetag a b => simp at hm
      | rgba a b c d => simp at hm
      | midi a b c d => simp at hm
    · rintro ⟨v, hv, hm⟩
      refine ⟨v, hv, ?_⟩
      rcases hm with ⟨i, rfl, hi⟩ | ⟨bs, rfl, hb⟩
      · simpa using hi
      · simpa using hb

/-- C2: an open client receives a PATH_CHANGED or binary OSC broadcast
for `path` exactly when its subscription set is empty or some
subscription `sub` satisfies `path == sub` or `path` starts with
`sub + "/"`; in particular `{"/a"}` matches `"/a/b/c"` and `{"/ab"}`
does not. -/
theorem subscription_matching (c : WSClient) (path : List Char) :
    (clientReceives c path = true ↔
      (c.readyStateOpen = true ∧
        (c.subscribedPaths = [] ∨
          ∃ sub ∈ c.subscribedPaths, path = sub ∨ (sub ++ ['/']) <+: path))) ∧
      clientReceives ⟨true, ["/a".toList]⟩ "/a/b/c".toList = true ∧
      clientReceives ⟨true, ["/ab".toList]⟩ "/a/b/c".toList = false := by
  refine ⟨?_, by decide, by decide⟩
  simp [clientReceives, pathMatchesSub, List.any_eq_true, List.isEmpty_iff,
    List.isPrefixOf_iff_prefix]

/-- C5: for an existing node, `GET /p?VALUE` answers 204 exactly when the
serialized node's ACCESS is 0 or 2; for every other ACCESS, including an
absent one, the handler responds with the VALUE attribute as JSON. -/
theorem value_query_answers_204 (n : SerializedNodeW) :
    (handleNodeQuery n (some "VALUE") = .noContent ↔
      n.ACCESS = some 0 ∨ n.ACCESS = some 2) ∧
      handleNodeQuery n (some "VALUE") =
        (if n.ACCESS = some 0 ∨ n.ACCESS = some 2 then .noContent
          else .attr "VALUE" n.VALUE) := by
  have hcont : VALID_ATTRIBUTES.contains "VALUE" = true := by decide
  have hhost : ("VALUE" == "HOST_INFO") = false := by decide
  have hself : ("VALUE" == "VALUE") = true := by decide
  have hbase : handleNodeQuery n (some "VALUE") =
      (if n.ACCESS = some 0 ∨ n.ACCESS = some 2 then .noContent
        else .attr "VALUE" n.VALUE) := by
    unfold handleNodeQuery
    dsimp only
    rw [hcont]
    simp only [not_true_eq_false, if_false, hhost, Bool.false_eq_true, if_false]
    rcases hA : n.ACCESS with _ | a
    · dsimp only
      rw [if_neg (by simp [hA])]
      have : attrOf n "VALUE" = n.VALUE := rfl
      rw [this]
    · dsimp only
      rw [hself, Bool.and_true]
      by_cases ha : a = 0 ∨ a = 2
      · rw [if_pos (by rcases ha with ha | ha <;> simp [ha]),
          if_pos (by rcases ha with ha | ha <;> simp [hA, ha])]
      · rw [if_neg (by rcases a with _ | _ | _ | a <;> simp_all),
          if_neg (by simp [hA]; omega)]
        have : attrOf n "VALUE" = n.VALUE := rfl
        rw [this]
  refine ⟨?_, hbase⟩
  rw [hbase]
  by_cases hc : n.ACCESS = some 0 ∨ n.ACCESS = some 2
  · simp [hc]
  · simp [hc]

theorem clip_attachment_isSome (node : SerializedMethodFields) (i : Nat) :
    ((match node.CLIPMODE with
      | none => none
      | some arr =>
        match arr[i]? with
        | some (some s) => if s.length ≠ 0 then some s else none
        | _ => none) : Option String).isSome = true ↔
      ∃ arr s, node.CLIPMODE = some arr ∧ arr[i]? = some (some s) ∧ s.length ≠ 0 := by
  rcases hC : node.CLIPMODE with _ | carr
  · simp
  · rcases hc : carr[i]? with _ | e
    · simp [hc]
    · rcases e with _ | str2
      · simp [hc]
      · by_cases hs : str2.length = 0
        · simp [hc, hs]
        · simp [hc, hs]

theorem mkMethodArg_spec (node : SerializedMethodFields) (t : OSCType) (i : Nat)
    (a : OSCMethodArgument) (h : mkMethodArg node t i = some a) :
    a.value = (node.VALUE.bind fun arr => arr[i]?) ∧
      (a.range.isSome = true ↔ ∃ arr r, node.RANGE = some arr ∧ arr[i]? = some (some r)) ∧
      (a.clipmode.isSome = true ↔ ∃ arr s, node.CLIPMODE = some arr ∧
        arr[i]? = some (some s) ∧ s.length ≠ 0) := by
  unfold mkMethodArg at h
  rcases hR : node.RANGE with _ | rarr
  · simp only [hR, Option.some.injEq] at h
    subst h
    refine ⟨by rcases node.VALUE with _ | varr <;> rfl, ?_, clip_attachment_isSome node i⟩
    simp [hR]
  · simp only [hR] at h
    rcases hr : rarr[i]? with _ | e
    · simp only [hr] at h
      exact Option.noConfusion h
    · rcases e with _ | r
      · simp only [hr, Option.some.injEq] at h
        subst h
        refine ⟨by rcases node.VALUE with _ | varr <;> rfl, ?_, clip_attachment_isSome node i⟩
        simp [hR, hr]
      · simp only [hr, Option.some.injEq] at h
        subst h
        refine ⟨by rcases node.VALUE with _ | varr <;> rfl, ?_, clip_attachment_isSome node i⟩
        simp only [hR, Option.some.injEq]
        constructor
        · intro _
          exact ⟨rarr, r, rfl, hr⟩
        · intro _
          simp

/-- C6 (amended): in a successfully deserialized argument list, entry `i`
has a range attached exactly when `RANGE` is present and its `i`-th entry
is a present non-null value, a clipmode attached exactly when `CLIPMODE`
is present and its `i`-th entry is truthy (non-null, non-empty), and its
`value` equals `VALUE[i]` whenever that entry is not `undefined` — so a
`null` entry of `VALUE` IS attached, against the claim's "a null entry is
never attached". -/
theorem deserialized_argument_attachment (node : SerializedMethodFields) :
    ∀ (types : List OSCType) (k : Nat) (args : List OSCMethodArgument),
      buildMethodArgs node types k = some args →
      ∀ (i : Nat) (a : OSCMethodArgument), args[i]? = some a →
        a.value = (node.VALUE.bind fun arr => arr[k + i]?) ∧
          (a.range.isSome = true ↔
            ∃ arr r, node.RANGE = some arr ∧ arr[k + i]? = some (some r)) ∧
          (a.clipmode.isSome = true ↔ ∃ arr s, node.CLIPMODE = some arr ∧
            arr[k + i]? = some (some s) ∧ s.length ≠ 0) := by
  intro types
  induction types with
  | nil =>
    intro k args hb i a hget
    simp only [buildMethodArgs, Option.some.injEq] at hb
    subst hb
    simp at hget
  | cons t ts ih =>
    intro k args hb i a hget
    unfold buildMethodArgs at hb
    rcases hm : mkMethodArg node t k with _ | a0
    · rw [hm] at hb
      exact Option.noConfusion hb
    · rw [hm] at hb
      rcases hr : buildMethodArgs node ts (k + 1) with _ | rest
      · rw [hr] at hb
        exact Option.noConfusion hb
      · rw [hr] at hb
        simp only [Option.map_some', Option.some.injEq] at hb
        subst hb
        cases i with
        | zero =>
          have ha : a0 = a := by simpa using hget
          subst ha
          simpa using mkMethodArg_spec node t k a0 hm
        | succ j =>
          have hrec := ih (k + 1) rest hr j a (by simpa using hget)
          have hx : k + 1 + j = k + (j + 1) := by omega
          rw [hx] at hrec
          exact hrec

/-- C6 counterexample: a node with `TYPE = "i"` and `VALUE = [null]`.
The deserializer attaches the null entry to the argument
(`node.VALUE[i] !== undefined` is true for `null`), while the claim says
a null entry is never attached. -/
theorem deserializer_attaches_null_value :
    deserializeMethodArguments nullValueNode =
      some (some
        [⟨OSCType.simple OSCTypeSimple.INT, none, none, some Json.null⟩]) ∧
      (some Json.null : Option Json) ≠ none := by
  constructor
  · have hp : parseTypeString ['i'] = [OSCType.simple OSCTypeSimple.INT] := by
      unfold parseTypeString
      rfl
    show (buildMethodArgs nullValueNode (parseTypeString ['i']) 0).map some = _
    rw [hp]
    rfl
  · simp

theorem deserialized_argument_attachment_witness :
    (⟨OSCType.simple OSCTypeSimple.INT, none, none, some Json.null⟩ :
        OSCMethodArgument).value =
      (nullValueNode.VALUE.bind fun arr => arr[0]?) :=
  (deserialized_argument_attachment nullValueNode [OSCType.simple OSCTypeSimple.INT] 0
    [⟨OSCType.simple OSCTypeSimple.INT, none, none, some Json.null⟩]
    (by rfl) 0
    ⟨OSCType.simple OSCTypeSimple.INT, none, none, some Json.null⟩
    (by rfl)).1

theorem lookupChild_eq_none_of_not_mem (s : List Char)
    (children : List (List Char × OTree)) (h : s ∉ children.map Prod.fst) :
    lookupChild children s = none := by
  unfold lookupChild
  have hnone : children.find? (fun e => e.1 == s) = none := by
    rw [List.find?_eq_none]
    intro e he
    simp only [beq_iff_eq]
    intro hes
    exact h (List.mem_map.mpr ⟨e, he, hes⟩)
  rw [hnone]
  rfl

theorem lookupChild_replaceChild (s : List Char) (x : OTree) :
    ∀ (children : List (List Char × OTree)) (c : OTree),
      lookupChild children s = some c →
      lookupChild (replaceChild children s x) s = some x := by
  intro children
  induction children with
  | nil =>
    intro c h
    exact Option.noConfusion h
  | cons e rest ih =>
    intro c h
    rcases he : (e.1 == s) with _ | _
    · have hne : ¬ ((e.1 == s) = true) := by
        rw [he]
        exact Bool.false_ne_true
      unfold lookupChild at h
      rw [List.find?_cons, he] at h
      have := ih c h
      unfold lookupChild replaceChild at this ⊢
      simp only [List.map_cons]
      rw [List.find?_cons, if_neg hne, he]
      exact this
    · unfold replaceChild lookupChild
      simp only [List.map_cons]
      rw [if_pos he, List.find?_cons]
      dsimp only
      rw [beq_self_eq_true s]
      rfl

theorem lookupChild_removeChildEntry (s : List Char) :
    ∀ children : List (List Char × OTree),
      (children.map Prod.fst).Nodup →
      lookupChild (removeChildEntry children s) s = none := by
  intro children
  induction children with
  | nil =>
    intro _
    rfl
  | cons e rest ih =>
    intro hnd
    rw [List.map_cons, List.nodup_cons] at hnd
    by_cases he : e.1 = s
    · rw [removeChildEntry, List.eraseP_cons_of_pos (by simp [he])]
      exact lookupChild_eq_none_of_not_mem s rest (he ▸ hnd.1)
    · have he2 : (e.1 == s) = false := by
        rw [beq_eq_false_iff_ne]
        exact he
      rw [removeChildEntry, List.eraseP_cons_of_neg (by rw [he2]; exact Bool.false_ne_true)]
      have := ih hnd.2
      unfold lookupChild removeChildEntry at this
      unfold lookupChild
      rw [List.find?_cons, he2]
      exact this

theorem WFTree_nodup (o : NodeOpts) (children : List (List Char × OTree))
    (h : WFTree (OTree.mk o children)) : (children.map Prod.fst).Nodup := by
  cases h
  assumption

theorem WFTree_child (o : NodeOpts) (children : List (List Char × OTree))
    (h : WFTree (OTree.mk o children)) (s : List Char) (c : OTree)
    (hl : lookupChild children s = some c) : WFTree c := by
  cases h with
  | mk _ _ _ hch =>
    unfold lookupChild at hl
    rcases hf : children.find? (fun e => e.1 == s) with _ | e
    · rw [hf] at hl
      exact Option.noConfusion hl
    · rw [hf] at hl
      have hmem := List.mem_of_find?_eq_some hf
      have : e.2 = c := by simpa using hl
      exact this ▸ hch e hmem

theorem becomesEmpty_descend :
    ∀ (segs : List (List Char)) (t : OTree), becomesEmpty t segs = true →
      ∀ (j : Nat), j ≤ segs.length → ∀ tj, resolvePath t (segs.take j) = some tj →
        becomesEmpty tj (segs.drop j) = true := by
  intro segs
  induction segs with
  | nil =>
    intro t hbe j hj tj htj
    have hj0 : j = 0 := by simpa using hj
    subst hj0
    have : t = tj := by simpa [resolvePath] using htj
    subst this
    simpa using hbe
  | cons seg rest ih =>
    intro t hbe j hj tj htj
    cases j with
    | zero =>
      have : t = tj := by simpa [resolvePath] using htj
      subst this
      simpa using hbe
    | succ k =>
      rcases t with ⟨o, ch⟩
      rcases hlook : lookupChild ch seg with _ | c
      · unfold becomesEmpty at hbe
        rw [hlook] at hbe
        exact Bool.noConfusion hbe
      · have hbe2 : becomesEmpty c rest = true := by
          unfold becomesEmpty at hbe
          rw [hlook] at hbe
          simp only [Bool.and_eq_true] at hbe
          exact hbe.1
        have htj2 : resolvePath c (rest.take k) = some tj := by
          rw [List.take_succ_cons] at htj
          unfold resolvePath at htj
          simpa [OTree.children, hlook] using htj
        have := ih c hbe2 k (by simpa using hj) tj htj2
        simpa using this

theorem isEmptyNode_cleared (ch : List (List Char × OTree)) :
    isEmptyNode (OTree.mk {} ch) = ch.isEmpty := by
  simp [isEmptyNode]

theorem pruneWalk_spec :
    ∀ (segs : List (List Char)) (t : OTree) (comps : List (List Char))
      (o : NodeOpts) (ch : List (List Char × OTree)),
      WFTree t →
      resolvePath t segs = some (OTree.mk o ch) →
      ((pruneWalk t segs comps).2.1 = becomesEmpty t segs) ∧
        (segs = [] → (pruneWalk t segs comps).1 = OTree.mk {} ch) ∧
        (segs ≠ [] → resolvePath (pruneWalk t segs comps).1 segs =
          (if ch.isEmpty then none else some (OTree.mk {} ch))) ∧
        (∀ j, 0 < j → j ≤ segs.length → ∀ tj,
          resolvePath t (segs.take j) = some tj →
          (resolvePath (pruneWalk t segs comps).1 (segs.take j) = none ↔
            becomesEmpty tj (segs.drop j) = true)) := by
  intro segs
  induction segs with
  | nil =>
    intro t comps o ch hwf hres
    have ht : t = OTree.mk o ch := by
      simpa [resolvePath] using hres
    subst ht
    refine ⟨?_, fun _ => rfl, fun hne => absurd rfl hne, ?_⟩
    · show isEmptyNode (OTree.mk {} ch) = becomesEmpty (OTree.mk o ch) []
      rw [isEmptyNode_cleared]
      simp [becomesEmpty]
    · intro j hj0 hjle tj htj
      simp only [List.length_nil] at hjle
      omega
  | cons seg rest ih =>
    intro t comps o ch hwf hres
    rcases t with ⟨o0, ch0⟩
    have hr1 : ∀ q : List (List Char),
        resolvePath (OTree.mk o0 ch0) (seg :: q) =
          (match lookupChild ch0 seg with
          | some c2 => resolvePath c2 q
          | none => none) := fun _ => rfl
    rcases hlook : lookupChild ch0 seg with _ | c
    · rw [hr1 rest, hlook] at hres
      exact Option.noConfusion hres
    · have hwfc : WFTree c := WFTree_child o0 ch0 hwf seg c hlook
      have hresc : resolvePath c rest = some (OTree.mk o ch) := by
        rw [hr1 rest, hlook] at hres
        exact hres
      have hnd : (ch0.map Prod.fst).Nodup := WFTree_nodup o0 ch0 hwf
      obtain ⟨ihP1, ihP2, ihP3, ihP4⟩ := ih c (comps ++ [seg]) o ch hwfc hresc
      have hbe1 : becomesEmpty (OTree.mk o0 ch0) (seg :: rest) =
          (match lookupChild ch0 seg with
          | none => false
          | some c2 => becomesEmpty c2 rest &&
              isEmptyNode (OTree.mk o0 (removeChildEntry ch0 seg))) := rfl
      rw [hlook] at hbe1
      have hpw : pruneWalk (OTree.mk o0 ch0) (seg :: rest) comps =
          (match lookupChild ch0 seg with
          | none => (OTree.mk o0 ch0, false, [])
          | some c2 =>
            let r := pruneWalk c2 rest (comps ++ [seg])
            if r.2.1 then
              let t := OTree.mk o0 (removeChildEntry ch0 seg)
              (t, isEmptyNode t, r.2.2 ++ [renderPath comps])
            else (OTree.mk o0 (replaceChild ch0 seg r.1), false, r.2.2)) := rfl
      rw [hlook] at hpw
      dsimp only at hpw
      rcases hdel : (pruneWalk c rest (comps ++ [seg])).2.1 with _ | _
      · have hbeC : becomesEmpty c rest = false := by
          rw [← ihP1]
          exact hdel
        rw [hpw, if_neg (by rw [hdel]; exact Bool.false_ne_true)]
        have hresolve : ∀ q : List (List Char),
            resolvePath (OTree.mk o0
              (replaceChild ch0 seg (pruneWalk c rest (comps ++ [seg])).1)) (seg :: q) =
              resolvePath (pruneWalk c rest (comps ++ [seg])).1 q := by
          intro q
          have h1 : resolvePath (OTree.mk o0
              (replaceChild ch0 seg (pruneWalk c rest (comps ++ [seg])).1)) (seg :: q) =
              (match lookupChild
                  (replaceChild ch0 seg (pruneWalk c rest (comps ++ [seg])).1) seg with
              | some c2 => resolvePath c2 q
              | none => none) := rfl
          rw [h1, lookupChild_replaceChild seg (pruneWalk c rest (comps ++ [seg])).1 ch0 c hlook]
        refine ⟨?_, fun h => absurd h (List.cons_ne_nil seg rest), ?_, ?_⟩
        · show false = becomesEmpty (OTree.mk o0 ch0) (seg :: rest)
          rw [hbe1]
          show false = (becomesEmpty c rest &&
            isEmptyNode (OTree.mk o0 (removeChildEntry ch0 seg)))
          rw [hbeC, Bool.false_and]
        · intro _
          show resolvePath (OTree.mk o0
            (replaceChild ch0 seg (pruneWalk c rest (comps ++ [seg])).1)) (seg :: rest) = _
          rw [hresolve rest]
          by_cases hrest : rest = []
          · subst hrest
            have hc : c = OTree.mk o ch := by
              simpa [resolvePath] using hresc
            subst hc
            have hchF : ch.isEmpty = false := by
              have h2 := hdel
              rw [show (pruneWalk (OTree.mk o ch) [] (comps ++ [seg])).2.1 =
                isEmptyNode (OTree.mk {} ch) from rfl, isEmptyNode_cleared] at h2
              exact h2
            show some (OTree.mk {} ch) = _
            rw [if_neg (by rw [hchF]; exact Bool.false_ne_true)]
          · exact ihP3 hrest
        · intro j hj0 hjle tj htj
          cases j with
          | zero => omega
          | succ k =>
            rw [List.take_succ_cons] at htj ⊢
            rw [List.drop_succ_cons]
            have htjc : resolvePath c (rest.take k) = some tj := by
              rw [hr1 (rest.take k), hlook] at htj
              exact htj
            show resolvePath (OTree.mk o0
              (replaceChild ch0 seg (pruneWalk c rest (comps ++ [seg])).1))
                (seg :: rest.take k) = none ↔ _
            rw [hresolve (rest.take k)]
            cases k with
            | zero =>
              have htc : c = tj := by
                simpa [resolvePath] using htjc
              subst htc
              refine iff_of_false ?_ ?_
              · simp [resolvePath]
              · rw [List.drop_zero, hbeC]
                exact Bool.false_ne_true
            | succ m =>
              have hm : m + 1 ≤ rest.length := by
                simp only [List.length_cons] at hjle
                omega
              exact ihP4 (m + 1) (Nat.succ_pos m) hm tj htjc
      · have hbeC : becomesEmpty c rest = true := by
          rw [← ihP1]
          exact hdel
        rw [hpw, if_pos hdel]
        have hlhsnone : ∀ q : List (List Char),
            resolvePath (OTree.mk o0 (removeChildEntry ch0 seg)) (seg :: q) = none := by
          intro q
          have h1 : resolvePath (OTree.mk o0 (removeChildEntry ch0 seg)) (seg :: q) =
              (match lookupChild (removeChildEntry ch0 seg) seg with
              | some c2 => resolvePath c2 q
              | none => none) := rfl
          rw [h1, lookupChild_removeChildEntry seg ch0 hnd]
        refine ⟨?_, fun h => absurd h (List.cons_ne_nil seg rest), ?_, ?_⟩
        · show isEmptyNode (OTree.mk o0 (removeChildEntry ch0 seg)) =
            becomesEmpty (OTree.mk o0 ch0) (seg :: rest)
          rw [hbe1]
          show isEmptyNode (OTree.mk o0 (removeChildEntry ch0 seg)) =
            (becomesEmpty c rest && isEmptyNode (OTree.mk o0 (removeChildEntry ch0 seg)))
          rw [hbeC, Bool.true_and]
        · intro _
          have hchT : ch.isEmpty = true := by
            have h1 := becomesEmpty_descend rest c hbeC rest.length (le_refl _)
              (OTree.mk o ch) (by rw [List.take_length]; exact hresc)
            rw [List.drop_length] at h1
            simpa [becomesEmpty] using h1
          show resolvePath (OTree.mk o0 (removeChildEntry ch0 seg)) (seg :: rest) = _
          rw [hlhsnone rest, if_pos hchT]
        · intro j hj0 hjle tj htj
          cases j with
          | zero => omega
          | succ k =>
            rw [List.take_succ_cons] at htj ⊢
            rw [List.drop_succ_cons]
            have htjc : resolvePath c (rest.take k) = some tj := by
              rw [hr1 (rest.take k), hlook] at htj
              exact htj
            have hk : k ≤ rest.length := by
              simp only [List.length_cons] at hjle
              omega
            refine iff_of_true (hlhsnone (rest.take k)) ?_
            exact becomesEmpty_descend rest c hbeC k hk tj htjc

/-- C7: `removeMethod` on a well-formed tree (distinct child names, as the
JS `Map` guarantees) and an existing node clears the target's attributes
while keeping its subtree, then, walking toward the root, deletes exactly
those nodes whose clear-and-prune cascade has made them empty, stopping at
the first non-empty ancestor: a path level is gone from the result exactly
when its node became empty.  In particular (scenario 1)
`addMethod("/g/h", ...)` then `removeMethod("/g/h")` removes both `/g/h`
and `/g` and broadcasts PATH_CHANGED for `/g/h` and for `/g` (plus `/`);
and with a sibling `/g/k` present (scenario 2) the walk deletes `/g/h`,
finds `/g` non-empty and stops there, leaving `/g` and `/g/k` intact. -/
theorem removeMethod_clear_prune_stop (t : OTree) (path : List Char)
    (o : NodeOpts) (ch : List (List Char × OTree)) (hwf : WFTree t)
    (hres : resolvePath t (splitPath path) = some (OTree.mk o ch)) :
    (splitPath path = [] → (removeMethod t path).1 = OTree.mk {} ch) ∧
      (splitPath path ≠ [] → resolvePath (removeMethod t path).1 (splitPath path) =
        (if ch.isEmpty then none else some (OTree.mk {} ch))) ∧
      (∀ j, 0 < j → j ≤ (splitPath path).length → ∀ tj,
        resolvePath t ((splitPath path).take j) = some tj →
        (resolvePath (removeMethod t path).1 ((splitPath path).take j) = none ↔
          becomesEmpty tj ((splitPath path).drop j) = true)) ∧
      (resolvePath removeResult.1 (splitPath "/g/h".toList)).isNone = true ∧
      (resolvePath removeResult.1 (splitPath "/g".toList)).isNone = true ∧
      removeResult.2.contains "/g/h".toList = true ∧
      removeResult.2.contains "/g".toList = true ∧
      removeResult.2 = ["/g".toList, "/".toList, "/g/h".toList] ∧
      (resolvePath removeResultStop.1 (splitPath "/g/h".toList)).isNone = true ∧
      (resolvePath removeResultStop.1 (splitPath "/g".toList)).isSome = true ∧
      (resolvePath removeResultStop.1 (splitPath "/g/k".toList)).isSome = true ∧
      removeResultStop.2 = ["/g".toList, "/g/h".toList] := by
  have hrm : (removeMethod t path).1 = (pruneWalk t (splitPath path) []).1 := by
    simp only [removeMethod]
    rw [hres]
  obtain ⟨_, hP2, hP3, hP4⟩ := pruneWalk_spec (splitPath path) t [] o ch hwf hres
  refine ⟨?_, ?_, ?_, by decide, by decide, by decide, by decide, by decide,
    by decide, by decide, by decide, by decide⟩
  · intro h
    rw [hrm]
    exact hP2 h
  · intro h
    rw [hrm]
    exact hP3 h
  · intro j hj0 hjle tj htj
    rw [hrm]
    exact hP4 j hj0 hjle tj htj

theorem removeMethod_clear_prune_stop_witness :
    resolvePath (removeMethod treeAfterAdd "/g/h".toList).1 (splitPath "/g/h".toList) =
      (if ([] : List (List Char × OTree)).isEmpty then none
        else some (OTree.mk {} [])) :=
  (removeMethod_clear_prune_stop treeAfterAdd "/g/h".toList
    ⟨none, none, none, none, some [⟨OSCType.simple OSCTypeSimple.INT, none, none, none⟩]⟩
    []
    (by
      have ht : treeAfterAdd = OTree.mk
          ⟨some "root node".toList, some 0, none, none, none⟩
          [(['g'], OTree.mk ⟨none, none, none, none, none⟩
            [(['h'], OTree.mk ⟨none, none, none, none,
              some [⟨OSCType.simple OSCTypeSimple.INT, none, none, none⟩]⟩ [])])] := rfl
      rw [ht]
      refine WFTree.mk _ _ (by decide) ?_
      intro e he
      simp only [List.mem_singleton] at he
      subst he
      show WFTree (OTree.mk ⟨none, none, none, none, none⟩
        [(['h'], OTree.mk ⟨none, none, none, none,
          some [⟨OSCType.simple OSCTypeSimple.INT, none, none, none⟩]⟩ [])])
      refine WFTree.mk _ _ (by decide) ?_
      intro e2 he2
      simp only [List.mem_singleton] at he2
      subst he2
      show WFTree (OTree.mk ⟨none, none, none, none,
        some [⟨OSCType.simple OSCTypeSimple.INT, none, none, none⟩]⟩ [])
      refine WFTree.mk _ _ (by decide) ?_
      intro e3 he3
      cases he3)
    (by rfl)).2.1 (by decide)

/-- C8: the sanitizer maps `"Node*OscQuery şğüıçö"` to exactly
`"NodeOscQuerysguco"` — NFD decomposes ş→s, ğ→g, ü→u, ç→c, ö→o plus
combining marks which are stripped; `*`, the space, and the undecomposed
dotless ı fall outside `[A-Za-z0-9-]` and are removed; the single label
needs no hyphen collapsing, trimming, or truncation. -/
theorem sanitize_name_scenario :
    sanitizeName [] "Node*OscQuery şğüıçö".toList = "NodeOscQuerysguco".toList := by
  decide

/-! ## mDNS dedup lemmas -/

theorem hasKey_eq_false_iff (st : ServicesMap) (k : String) :
    hasKey st k = false ↔ k ∉ mapKeys st := by
  rw [← Bool.not_eq_true]
  simp only [hasKey, List.any_eq_true, beq_iff_eq, mapKeys, List.mem_map]

theorem hasKey_eq_true_iff (st : ServicesMap) (k : String) :
    hasKey st k = true ↔ ∃ e ∈ st, e.1 = k := by
  simp [hasKey, List.any_eq_true]

theorem eraseP_key_gone (k : String) :
    ∀ st : ServicesMap, (mapKeys st).Nodup →
      hasKey (st.eraseP fun x => x.1 == k) k = false := by
  intro st
  induction st with
  | nil => intro _; rfl
  | cons e rest ih =>
    intro hnd
    rw [mapKeys, List.map_cons, List.nodup_cons] at hnd
    by_cases he : e.1 = k
    · rw [List.eraseP_cons_of_pos (by simp [he])]
      rw [hasKey_eq_false_iff]
      rw [← he]
      exact hnd.1
    · rw [List.eraseP_cons_of_neg (by simp [he])]
      have := ih hnd.2
      simp only [hasKey, List.any_cons, beq_iff_eq, he] at this ⊢
      simpa [he] using this

theorem upAddress_spec (proto : String) (svc : MDNSService) (st : ServicesMap)
    (address : String) :
    (((upAddress proto svc st address).2 ≠ []) ↔
      hasKey st (getServiceKey address svc.port) = false) ∧
      hasKey (upAddress proto svc st address).1 (getServiceKey address svc.port) = true ∧
      (∀ k, hasKey st k = true → hasKey (upAddress proto svc st address).1 k = true) ∧
      ((mapKeys st).Nodup → (mapKeys (upAddress proto svc st address).1).Nodup) ∧
      (hasKey st (getServiceKey address svc.port) = true →
        upAddress proto svc st address = (st, [])) := by
  unfold upAddress
  by_cases hk : hasKey st (getServiceKey address svc.port) = true
  · simp [hk]
  · rw [Bool.not_eq_true] at hk
    rw [if_neg (by simp [hk])]
    refine ⟨by simp [hk], ?_, ?_, ?_, ?_⟩
    · simp [hasKey, List.any_append]
    · intro k hkk
      simp only [hasKey] at hkk
      simp [hasKey, List.any_append, hkk]
    · intro hnd
      simp only [mapKeys, List.map_append, List.map_cons, List.map_nil]
      rw [← List.concat_eq_append]
      exact List.Nodup.concat ((hasKey_eq_false_iff st _).mp hk) hnd
    · intro hkk
      rw [hkk] at hk
      exact absurd hk (by simp)

theorem upFold_spec (proto : String) (svc : MDNSService) :
    ∀ (addrs : List String) (st : ServicesMap) (es : List DiscoveredMDNSService),
      (∀ k, hasKey st k = true →
        hasKey (addrs.foldl (fun acc address =>
          let r := upAddress proto svc acc.1 address
          (r.1, acc.2 ++ r.2)) (st, es)).1 k = true) ∧
      ((mapKeys st).Nodup →
        (mapKeys (addrs.foldl (fun acc address =>
          let r := upAddress proto svc acc.1 address
          (r.1, acc.2 ++ r.2)) (st, es)).1).Nodup) ∧
      (∀ a ∈ addrs,
        hasKey (addrs.foldl (fun acc address =>
          let r := upAddress proto svc acc.1 address
          (r.1, acc.2 ++ r.2)) (st, es)).1 (getServiceKey a svc.port) = true) ∧
      ((∀ a ∈ addrs, hasKey st (getServiceKey a svc.port) = true) →
        addrs.foldl (fun acc address =>
          let r := upAddress proto svc acc.1 address
          (r.1, acc.2 ++ r.2)) (st, es) = (st, es)) := by
  intro addrs
  induction addrs with
  | nil =>
    intro st es
    exact ⟨fun k h => h, fun h => h, by simp, fun _ => rfl⟩
  | cons a rest ih =>
    intro st es
    simp only [List.foldl_cons]
    obtain ⟨hmono, hnodup, hmem, hnoop⟩ :=
      ih (upAddress proto svc st a).1 (es ++ (upAddress proto svc st a).2)
    refine ⟨?_, ?_, ?_, ?_⟩
    · intro k hk
      exact hmono k ((upAddress_spec proto svc st a).2.2.1 k hk)
    · intro hnd
      exact hnodup ((upAddress_spec proto svc st a).2.2.2.1 hnd)
    · intro x hx
      rcases List.mem_cons.mp hx with rfl | hx
      · exact hmono _ ((upAddress_spec proto svc st x).2.1)
      · exact hmem x hx
    · intro hall
      have hst : upAddress proto svc st a = (st, []) :=
        (upAddress_spec proto svc st a).2.2.2.2 (hall a (List.mem_cons_self a rest))
      simp only [hst, List.append_nil]
      exact (ih st es).2.2.2 (fun x hx => hall x (List.mem_cons_of_mem a hx))

theorem handleUp_nodup (proto : String) (st : ServicesMap) (svc : MDNSService)
    (h : (mapKeys st).Nodup) : (mapKeys (handleUp proto st svc).1).Nodup := by
  unfold handleUp
  split
  · exact h
  · exact (upFold_spec proto svc (svc.addresses.getD []) st []).2.1 h

theorem handleUp_second_emits_nil (proto : String) (st : ServicesMap)
    (svc : MDNSService) : (handleUp proto (handleUp proto st svc).1 svc).2 = [] := by
  unfold handleUp
  by_cases hp : svc.protocol ≠ proto
  · simp [hp]
  · rw [if_neg hp, if_neg hp]
    have hall := (upFold_spec proto svc (svc.addresses.getD []) st []).2.2.1
    have hno := (upFold_spec proto svc (svc.addresses.getD [])
      ((svc.addresses.getD []).foldl (fun acc address =>
        let r := upAddress proto svc acc.1 address
        (r.1, acc.2 ++ r.2)) (st, [])).1 []).2.2.2 hall
    rw [hno]

theorem downAddress_spec (st : ServicesMap) (port : Nat) (address : String) :
    (((downAddress st port address).2 ≠ []) ↔
      hasKey st (getServiceKey address port) = true) ∧
      ((mapKeys st).Nodup → (mapKeys (downAddress st port address).1).Nodup) ∧
      ((mapKeys st).Nodup →
        hasKey (downAddress st port address).1 (getServiceKey address port) = false) := by
  unfold downAddress
  rcases hf : st.find? (fun e => e.1 == getServiceKey address port) with _ | e
  all_goals simp only [hf]
  · have hk : hasKey st (getServiceKey address port) = false := by
      rw [List.find?_eq_none] at hf
      rw [← Bool.not_eq_true]
      simp only [hasKey, List.any_eq_true]
      rintro ⟨x, hx, hpx⟩
      exact absurd hpx (hf x hx)
    exact ⟨by simp [hk], fun h => h, fun _ => hk⟩
  · have hk : hasKey st (getServiceKey address port) = true := by
      have hp := List.find?_some hf
      have hmem := List.mem_of_find?_eq_some hf
      simp only [hasKey, List.any_eq_true]
      exact ⟨e, hmem, hp⟩
    refine ⟨by simp [hk], ?_, ?_⟩
    · intro hnd
      exact ((List.eraseP_sublist st).map Prod.fst).nodup hnd
    · intro hnd
      exact eraseP_key_gone (getServiceKey address port) st hnd

theorem downFold_nodup (port : Nat) :
    ∀ (addrs : List String) (st : ServicesMap) (es : List DiscoveredMDNSService),
      (mapKeys st).Nodup →
      (mapKeys (addrs.foldl (fun acc address =>
        let r := downAddress acc.1 port address
        (r.1, acc.2 ++ r.2)) (st, es)).1).Nodup := by
  intro addrs
  induction addrs with
  | nil =>
    intro st es h
    exact h
  | cons a rest ih =>
    intro st es h
    simp only [List.foldl_cons]
    exact ih _ _ ((downAddress_spec st port a).2.1 h)

theorem applyEvent_nodup (proto : String) (st : ServicesMap) (ev : BrowserEvent)
    (h : (mapKeys st).Nodup) : (mapKeys (applyEvent proto st ev)).Nodup := by
  cases ev with
  | up svc => exact handleUp_nodup proto st svc h
  | down svc => exact downFold_nodup svc.port (svc.addresses.getD []) st [] h

theorem runEvents_nodup (proto : String) (evs : List BrowserEvent) :
    (mapKeys (runEvents proto evs)).Nodup := by
  have hgen : ∀ (l : List BrowserEvent) (st : ServicesMap), (mapKeys st).Nodup →
      (mapKeys (l.foldl (applyEvent proto) st)).Nodup := by
    intro l
    induction l with
    | nil =>
      intro st h
      exact h
    | cons e rest ih =>
      intro st h
      exact ih _ (applyEvent_nodup proto st e h)
  exact hgen evs [] (by simp [mapKeys])

/-- C9: within one discovery session, the per-address body of
`_handleUp` emits `up` exactly when the `(address, port)` key is not
currently tracked and the key is tracked afterwards; the per-address
body of `_handleDown` emits `down` exactly when the key is tracked, and
(the map keys being distinct) the key is retired afterwards; replaying
the same service through `_handleUp` twice emits nothing the second
time; and over any sequence of browser callbacks the tracked service map
holds at most one entry per key. -/
theorem mdns_up_down_dedup (proto : String) (st : ServicesMap) (svc : MDNSService)
    (address : String) (evs : List BrowserEvent) :
    (((upAddress proto svc st address).2 ≠ []) ↔
      hasKey st (getServiceKey address svc.port) = false) ∧
      hasKey (upAddress proto svc st address).1 (getServiceKey address svc.port) = true ∧
      (((downAddress st svc.port address).2 ≠ []) ↔
        hasKey st (getServiceKey address svc.port) = true) ∧
      ((mapKeys st).Nodup →
        hasKey (downAddress st svc.port address).1 (getServiceKey address svc.port) = false) ∧
      (handleUp proto (handleUp proto st svc).1 svc).2 = [] ∧
      (mapKeys (runEvents proto evs)).Nodup :=
  ⟨(upAddress_spec proto svc st address).1,
    (upAddress_spec proto svc st address).2.1,
    (downAddress_spec st svc.port address).1,
    (downAddress_spec st svc.port address).2.2,
    handleUp_second_emits_nil proto st svc,
    runEvents_nodup proto evs⟩

theorem mdns_up_down_dedup_witness :
    hasKey (downAddress [(getServiceKey "10.0.0.5" 8080,
        ⟨"10.0.0.5", 8080, "svc", "oscjson", "oscjson._tcp.local", "host", []⟩)]
        8080 "10.0.0.5").1 (getServiceKey "10.0.0.5" 8080) = false :=
  (mdns_up_down_dedup "tcp"
    [(getServiceKey "10.0.0.5" 8080,
      ⟨"10.0.0.5", 8080, "svc", "oscjson", "oscjson._tcp.local", "host", []⟩)]
    ⟨"tcp", some ["10.0.0.5"], 8080, "svc", "oscjson", "host", none⟩
    "10.0.0.5" []).2.2.2.1 (by decide)
